import Mathlib

/-!
# Verification of the parallel downloader (`main.py`)

A shallow embedding of the core downloader logic in Lean 4:

* a model of Python's `urllib.parse.urlparse` (the parts the program reads:
  `scheme`, `netloc`, `path`, with the scheme lowercased by the parser and a
  `ValueError` on mismatched square brackets in the authority),
* POSIX path operations (`os.path.join`, `os.path.normpath`,
  `os.path.basename`, `os.path.dirname`, `str.lstrip("/")`),
* the URL validator `is_valid_url` and the path resolver `resolve_filepath`,
* the fetch-and-persist worker `download_and_save` over an explicit
  filesystem state and an abstract HTTP collaborator,
* the source extractors (line file, stdin, CSV, JSON, sitemap XML) over
  already-parsed input data, and the aggregator `collect_urls`,
* the `main` coordinator's observable effects.

All definitions are executable; strings are processed as their underlying
character lists.  Character classes follow the ASCII behaviour of Python, which
covers every input the claims mention.
-/

namespace Downloader

/-! ## Basic string utilities (Python string methods on `List Char`) -/

/-- Python whitespace for `str.strip()` (ASCII fragment). -/
def isPySpace (c : Char) : Bool :=
  c = ' ' || c = '\t' || c = '\n' || c = '\r' || c = '\x0b' || c = '\x0c'

/-- Python `str.strip()` on a character list. -/
def stripL (l : List Char) : List Char :=
  ((l.dropWhile isPySpace).reverse.dropWhile isPySpace).reverse

/-- Python `str.strip()` on a string. -/
def pyStrip (s : String) : String := String.mk (stripL s.data)

/-- Split at the first occurrence of `c`: `some (before, after)` when present. -/
def splitAtChar (c : Char) : List Char → Option (List Char × List Char)
  | [] => none
  | x :: xs =>
    if x = c then some ([], xs)
    else match splitAtChar c xs with
      | some (b, a) => some (x :: b, a)
      | none => none

/-- Content-before-delimiter semantics of `find`: content before the first of the
given delimiter characters (the whole list when none occurs). -/
def takeUntilAny (delims : List Char) (l : List Char) : List Char :=
  l.takeWhile (fun c => ¬ delims.contains c)

/-- The rest from the first of the given delimiter characters onwards. -/
def dropUntilAny (delims : List Char) (l : List Char) : List Char :=
  l.dropWhile (fun c => ¬ delims.contains c)

/-! ## Model of `urllib.parse.urlparse`

Follows the CPython `urlsplit`/`urlparse` (3.11-era): leading
C0-control-or-space stripping, removal of tab/CR/LF, scheme extraction with
lowercasing, netloc up to the first of `/?#`, the mismatched-bracket
`ValueError`, fragment then query splitting, and `_splitparams` for the
`params` component of `urlparse`. -/

/-- WHATWG C0 control or space characters removed from the front of a URL. -/
def isC0OrSpace (c : Char) : Bool := c.toNat ≤ 0x20

/-- Characters unconditionally removed from a URL (`\t`, `\r`, `\n`). -/
def isUnsafeUrlByte (c : Char) : Bool := c = '\t' || c = '\r' || c = '\n'

/-- Characters allowed in a URL scheme after the first. -/
def schemeChar (c : Char) : Bool :=
  c.isAlpha || c.isDigit || c = '+' || c = '-' || c = '.'

structure ParseResult where
  scheme : String
  netloc : String
  path : String
  deriving Repr, DecidableEq

/-- Scheme extraction step of `urlsplit`: returns the lowercased scheme and
the remaining URL.  The scheme must start with an ASCII letter, consist of
scheme characters, and be terminated by the first `:` of the URL. -/
def extractScheme (l : List Char) : List Char × List Char :=
  match splitAtChar ':' l with
  | some (before, after) =>
    match before.head? with
    | some c0 =>
      if c0.isAlpha && before.all schemeChar then
        (before.map Char.toLower, after)
      else ([], l)
    | none => ([], l)
  | none => ([], l)

/-- Netloc extraction (`_splitnetloc` with start = 2, applied after the
leading `//` has been removed): up to the first of `/`, `?`, `#`. -/
def splitNetloc (l : List Char) : List Char × List Char :=
  (takeUntilAny ['/', '?', '#'] l, dropUntilAny ['/', '?', '#'] l)

/-- Model of `_splitparams`: drop the `;params` suffix of the last path segment.
Only invoked when `;` occurs in the path. -/
def splitparams (l : List Char) : List Char :=
  if l.contains '/' then
    let revIdx := (l.reverse.takeWhile (· ≠ '/')).reverse
    let stem := l.take (l.length - revIdx.length)
    match splitAtChar ';' revIdx with
    | some (b, _) => stem ++ b
    | none => l
  else
    match splitAtChar ';' l with
    | some (b, _) => b
    | none => l

/-- Model of `urllib.parse.urlparse` restricted to the components the
program reads.  `Except` carries the `ValueError` raised on a mismatched
square bracket in the netloc. -/
def pyUrlparse (s : String) : Except String ParseResult :=
  let l0 := (s.data.dropWhile isC0OrSpace).filter (fun c => ¬ isUnsafeUrlByte c)
  let (scheme, l1) := extractScheme l0
  let (netloc, l2) :=
    match l1 with
    | '/' :: '/' :: rest => splitNetloc rest
    | _ => ([], l1)
  if (netloc.contains '[' && ¬ netloc.contains ']') ||
     (netloc.contains ']' && ¬ netloc.contains '[') then
    .error "Invalid IPv6 URL"
  else
    let l3 := match splitAtChar '#' l2 with
      | some (b, _) => b
      | none => l2
    let l4 := match splitAtChar '?' l3 with
      | some (b, _) => b
      | none => l3
    let path := if l4.contains ';' then splitparams l4 else l4
    .ok ⟨String.mk scheme, String.mk netloc, String.mk path⟩

/-! ## POSIX path operations (`posixpath`) -/

/-- Python `str.lstrip("/")`: remove every leading slash. -/
def lstripSlashes (l : List Char) : List Char := l.dropWhile (· = '/')

/-- POSIX `os.path.join(a, b)` for two components. -/
def pyJoin (a b : String) : String :=
  if b.data.head? = some '/' then b
  else if a = "" || a.data.getLast? = some '/' then a ++ b
  else a ++ "/" ++ b

/-- POSIX `os.path.basename(p)`: everything after the last slash. -/
def pyBasename (p : String) : String :=
  String.mk (p.data.reverse.takeWhile (· ≠ '/')).reverse

/-- POSIX `os.path.dirname(p)`: everything before the last slash;
`""` when there is no slash. -/
def pyDirname (p : String) : String :=
  let l := p.data
  let base := (l.reverse.takeWhile (· ≠ '/')).reverse
  let head := l.take (l.length - base.length)
  -- posixpath.dirname strips trailing slashes of the head unless it is all slashes
  if head.all (· = '/') then String.mk head
  else String.mk (head.reverse.dropWhile (· = '/')).reverse

/-- Python `p.split("/")` on character lists: components between slashes
(empty components preserved, like the Python `str.split` with an argument). -/
def splitSlash : List Char → List (List Char)
  | [] => [[]]
  | c :: rest =>
    if c = '/' then [] :: splitSlash rest
    else
      match splitSlash rest with
      | r :: rs => (c :: r) :: rs
      | [] => [[c]]

/-- Python `"/".join(comps)` on character lists. -/
def joinSlash : List (List Char) → List Char
  | [] => []
  | [c] => c
  | c :: cs => c ++ '/' :: joinSlash cs

/-- The component loop of `posixpath.normpath`: `initSlashes` tells whether
the input was absolute (the `initial_slashes` truthiness flag), `acc` is the
`new_comps` stack. -/
def normComps (initSlashes : Bool) : List (List Char) → List (List Char) → List (List Char)
  | [], acc => acc
  | c :: cs, acc =>
    if c = [] ∨ c = ['.'] then normComps initSlashes cs acc
    else if c ≠ ['.', '.'] ∨ (initSlashes = false ∧ acc = []) ∨
            acc.getLast? = some ['.', '.'] then
      normComps initSlashes cs (acc ++ [c])
    else if acc ≠ [] then normComps initSlashes cs acc.dropLast
    else normComps initSlashes cs acc

/-- POSIX `os.path.normpath(p)`. -/
def pyNormpath (p : String) : String :=
  if p = "" then "." else
  let l := p.data
  let initialSlashes : Nat :=
    if l.head? = some '/' then
      if l.take 2 = ['/', '/'] && l.take 3 ≠ ['/', '/', '/'] then 2 else 1
    else 0
  let comps := normComps (initialSlashes ≠ 0) (splitSlash l) []
  let res := List.replicate initialSlashes '/' ++ joinSlash comps
  if res = [] then "." else String.mk res

/-- Python `s.startswith("..")` on a string. -/
def startsWithDotDot (s : String) : Bool :=
  s.data.take 2 = ['.', '.']

/-- Python `s.replace("..", "_")` replacement: left-to-right, non-overlapping. -/
def replaceDotDotL : List Char → List Char
  | [] => []
  | [c] => [c]
  | c1 :: c2 :: rest =>
    if c1 = '.' ∧ c2 = '.' then '_' :: replaceDotDotL rest
    else c1 :: replaceDotDotL (c2 :: rest)

def replaceDotDot (s : String) : String := String.mk (replaceDotDotL s.data)

/-! ## `is_valid_url` (main.py lines 14–19) -/

/-- Model of `is_valid_url`: scheme is `http` or `https` and netloc is non-empty;
a parse failure yields `false`. -/
def is_valid_url (url : String) : Bool :=
  match pyUrlparse url with
  | .ok p => (p.scheme = "http" || p.scheme = "https") && p.netloc ≠ ""
  | .error _ => false

/-! ## `resolve_filepath` (main.py lines 22–34)

`none` models the (unhandled) `ValueError` that `urlparse` can raise. -/

/-- Lines 25–27: `parsed.path.lstrip("/")`, with `downloaded_file` appended
when the remainder is empty or ends in a separator. -/
def preservedRelPath (urlPath : String) : String :=
  let path := String.mk (lstripSlashes urlPath.data)
  if path = "" || path.data.getLast? = some '/' then
    pyJoin path "downloaded_file"
  else path

/-- Lines 28–30: normalize, then neutralize a leading upward traversal by
replacing every `".."` occurrence with `"_"`. -/
def sanitized (path : String) : String :=
  let safe_path := pyNormpath path
  if startsWithDotDot safe_path then replaceDotDot safe_path
  else safe_path

def resolve_filepath (url out_folder : String) (preserve_path : Bool) :
    Option String :=
  match pyUrlparse url with
  | .error _ => none
  | .ok parsed =>
    if preserve_path then
      some (pyJoin out_folder (sanitized (preservedRelPath parsed.path)))
    else
      let filename :=
        if pyBasename parsed.path = "" then "downloaded_file"
        else pyBasename parsed.path
      some (pyJoin out_folder filename)

/-- Substring test for `".."` in a list (used to reason about `replaceDotDot`). -/
def hasDotDot : List Char → Bool
  | [] => false
  | [_] => false
  | c1 :: c2 :: rest =>
    if c1 = '.' ∧ c2 = '.' then true else hasDotDot (c2 :: rest)

/-! ## Python `set` as a duplicate-free list

Membership-checking insertion keeps insertion order, which models the
semantics of `set.add` / `set` union: unique by exact string equality. -/

/-- Python `set.add` on the list model. -/
def insertSet (acc : List String) (u : String) : List String :=
  if u ∈ acc then acc else acc ++ [u]

/-- Python set union `acc |= elems` on the list model. -/
def listUnion (acc : List String) (elems : List String) : List String :=
  elems.foldl insertSet acc

/-! ## Filesystem and HTTP collaborator models -/

/-- Response bodies are opaque byte lists. -/
abbrev Bytes := List Nat

/-- A `requests` response: status code and raw content. -/
structure HttpResponse where
  status : Nat
  content : Bytes
  deriving Repr, DecidableEq

/-- Result of `requests.get`: a response, or a raised transport error
(timeout, DNS failure, connection reset, malformed response). -/
inductive HttpResult where
  | ok : HttpResponse → HttpResult
  | transportError : String → HttpResult
  deriving Repr, DecidableEq

/-- The HTTP collaborator: what one GET to each URL returns. -/
abbrev HttpOracle := String → HttpResult

/-- Model of `Response.raise_for_status`: raises `HTTPError` for 4xx/5xx status
codes (400 ≤ status < 600), returns normally otherwise. -/
def raise_for_status (r : HttpResponse) : Except String Unit :=
  if 400 ≤ r.status ∧ r.status < 600 then
    .error ("HTTPError " ++ toString r.status)
  else .ok ()

/-- Did the GET for `url` fail in the sense the worker `try` block
detects: transport error, or a 4xx/5xx status? -/
def httpFails (http : HttpOracle) (url : String) : Bool :=
  match http url with
  | .transportError _ => true
  | .ok r => decide (400 ≤ r.status ∧ r.status < 600)

/-- Filesystem state: the set of existing directories and a map from file
paths to contents (as an association list). -/
structure FS where
  dirs : List String
  files : List (String × Bytes)
  deriving Repr, DecidableEq

def FS.isFile (fs : FS) (p : String) : Bool := (fs.files.map Prod.fst).contains p

def FS.isdir (fs : FS) (p : String) : Bool := fs.dirs.contains p

/-- Model of `os.path.exists`. -/
def FS.exists (fs : FS) (p : String) : Bool := fs.isFile p || fs.isdir p

/-- All the directories `os.makedirs(p)` needs: every prefix of `p` at a
slash boundary, including `p` itself. -/
def ancestors (p : String) : List String :=
  (List.range p.data.length).filterMap (fun i =>
    let pre := p.data.take (i + 1)
    if pre.getLast? = some '/' then none
    else if i + 1 < p.data.length ∧ p.data.get? (i + 1) ≠ some '/' then none
    else some (String.mk pre))

/-- Model of `os.makedirs(p, exist_ok=True)`: creates every missing ancestor
directory; raises when a needed directory name is occupied by an existing
regular file. -/
def makedirs (fs : FS) (p : String) : Except String FS :=
  if (ancestors p).any fs.isFile then
    .error ("FileExistsError " ++ p)
  else
    .ok { fs with dirs := (ancestors p).foldl (fun ds d => if d ∈ ds then ds else ds ++ [d]) fs.dirs }

/-- Whole-buffer binary write (`open(path, "wb")` followed by `write`). -/
def FS.writeFile (fs : FS) (p : String) (content : Bytes) : FS :=
  { fs with files := (p, content) :: fs.files.filter (fun kv => kv.1 ≠ p) }

/-- Look up the content of a file. -/
def FS.readFile (fs : FS) (p : String) : Option Bytes :=
  (fs.files.find? (fun kv => kv.1 = p)).map Prod.snd

/-! ## The fetch-and-persist worker `download_and_save` (main.py 37–57)

Exceptions modelled by the `Except` layer are those that propagate out of the function
(the `urlparse` `ValueError` from `resolve_filepath`, and `os.makedirs`
failures — both happen outside the `try` block of the worker).  Everything the
`try` block catches becomes a `Failed` outcome instead. -/

inductive Outcome where
  | saved (path : String)
  | skipped (path : String)
  | failed (url : String) (cause : String)
  deriving Repr, DecidableEq

structure WorkerResult where
  outcome : Outcome
  fs : FS
  getIssued : Bool
  deriving Repr, DecidableEq

/-- The directory-creation step of the worker (main.py 41–43). -/
def ensureDir (fs : FS) (filepath : String) : Except String FS :=
  let dirpath := pyDirname filepath
  if dirpath ≠ "" ∧ fs.isdir dirpath = false then makedirs fs dirpath
  else .ok fs

def download_and_save (http : HttpOracle) (fs : FS) (url out_dir : String)
    (preserve_path skip_existing : Bool) : Except String WorkerResult :=
  match resolve_filepath url out_dir preserve_path with
  | none => .error "ValueError"
  | some filepath =>
    match ensureDir fs filepath with
    | .error e => .error e
    | .ok fs1 =>
      if skip_existing ∧ fs1.exists filepath = true then
        .ok ⟨.skipped filepath, fs1, false⟩
      else
        -- the try block: any failure below is caught and printed
        match http url with
        | .transportError e => .ok ⟨.failed url e, fs1, true⟩
        | .ok resp =>
          match raise_for_status resp with
          | .error e => .ok ⟨.failed url e, fs1, true⟩
          | .ok _ =>
            if fs1.isdir filepath then
              .ok ⟨.failed url ("IsADirectoryError " ++ filepath), fs1, true⟩
            else
              .ok ⟨.saved filepath, fs1.writeFile filepath resp.content, true⟩

/-- Sequential model of the coordinator worker loop: one faithful
interleaving of the thread pool (each worker runs to completion, the
filesystem threads through).  Returns the result of each submitted worker in
order, plus the final filesystem. -/
def runAll (http : HttpOracle) (fs : FS) (urls : List String)
    (out : String) (preserve_path skip_existing : Bool) :
    List (Except String WorkerResult) × FS :=
  match urls with
  | [] => ([], fs)
  | u :: us =>
    let r := download_and_save http fs u out preserve_path skip_existing
    let fs1 := match r with | .ok wr => wr.fs | .error _ => fs
    let (rs, fs2) := runAll http fs1 us out preserve_path skip_existing
    (r :: rs, fs2)

/-- What `main` observes of the workers: `as_completed` is drained without
inspecting the futures, so only outcomes printed by workers themselves are
observable; a worker that raised produces nothing. -/
def observedOutcomes (results : List (Except String WorkerResult)) : List Outcome :=
  results.filterMap (fun r => match r with | .ok wr => some wr.outcome | .error _ => none)

/-! ## Source extractors (main.py 60–158)

Each extractor is modelled over its already-read input data: the loaders'
interaction with the filesystem (missing file, unreadable content) is
collapsed into an `Option` around that data — `none` stands for the
missing-file / failed-parse diagnostic branches, all of which return the
empty set in the source. -/

/-- Model of `load_from_file_lines` over the file lines (`none` = file missing). -/
def load_from_file_lines (content : Option (List String)) : List String :=
  match content with
  | none => []
  | some lines =>
    lines.foldl (fun acc line =>
      let t := pyStrip line
      if t ≠ "" ∧ is_valid_url t = true then insertSet acc t else acc) []

/-- Model of `load_from_stdin` over the stream lines. -/
def load_from_stdin (lines : List String) : List String :=
  lines.foldl (fun acc line =>
    let t := pyStrip line
    if t ≠ "" ∧ is_valid_url t = true then insertSet acc t else acc) []

/-- A parsed CSV document: header (fieldnames) and data rows. -/
structure CsvDoc where
  header : List String
  rows : List (List String)
  deriving Repr, DecidableEq

/-- Cell access of `csv.DictReader`, `row.get(column) or ""`: keys are zipped
with the row values (missing cells behave like the empty string; for
duplicated fieldnames the last column wins, as in a Python dict). -/
def csvCell (header row : List String) (column : String) : String :=
  match ((header.zip row).reverse.find? (fun kv => kv.1 = column)) with
  | some kv => kv.2
  | none => ""

/-- Model of `load_from_csv` over the parsed table (`none` = file missing). -/
def load_from_csv (doc : Option CsvDoc) (column : String) : List String :=
  match doc with
  | none => []
  | some d =>
    if column ∈ d.header then
      d.rows.foldl (fun acc row =>
        let u := pyStrip (csvCell d.header row column)
        if u ≠ "" ∧ is_valid_url u = true then insertSet acc u else acc) []
    else []

/-- JSON values (`json.load` output shapes). -/
inductive JsonVal where
  | str (s : String)
  | num (n : Int)
  | bool (b : Bool)
  | null
  | arr (items : List JsonVal)
  | obj (fields : List (String × JsonVal))

/-- Descent loop of `_get_by_keypath`: follow one object key per part. -/
def getByKeypathParts : JsonVal → List String → Option JsonVal
  | cur, [] => some cur
  | .obj fields, part :: rest =>
    match fields.lookup part with
    | some nxt => getByKeypathParts nxt rest
    | none => none
  | _, _ :: _ => none

/-- Model of `_get_by_keypath` (main.py 89–96): descend dot-separated object
keys. -/
def getByKeypath (v : JsonVal) (keypath : String) : Option JsonVal :=
  getByKeypathParts v (keypath.splitOn ".")

mutual

/-- Model of `_collect_urls_any` (main.py 99–108): recursive traversal accumulating
every valid URL string into the set `acc`. -/
def collectUrlsAny : JsonVal → List String → List String
  | .str s, acc => if is_valid_url s then insertSet acc s else acc
  | .arr items, acc => collectUrlsAnyList items acc
  | .obj fields, acc => collectUrlsAnyFields fields acc
  | .num _, acc => acc
  | .bool _, acc => acc
  | .null, acc => acc

def collectUrlsAnyList : List JsonVal → List String → List String
  | [], acc => acc
  | v :: vs, acc => collectUrlsAnyList vs (collectUrlsAny v acc)

def collectUrlsAnyFields : List (String × JsonVal) → List String → List String
  | [], acc => acc
  | (_, v) :: fs, acc => collectUrlsAnyFields fs (collectUrlsAny v acc)

end

mutual

/-- Does `s` occur as a string anywhere in the document — at any nesting
depth, as a list element or an object value (the description in the spec of the
unrestricted recursive traversal)? -/
def stringOccurs (s : String) : JsonVal → Bool
  | .str t => s = t
  | .arr items => stringOccursList s items
  | .obj fields => stringOccursFields s fields
  | .num _ => false
  | .bool _ => false
  | .null => false

def stringOccursList (s : String) : List JsonVal → Bool
  | [] => false
  | v :: vs => stringOccurs s v || stringOccursList s vs

def stringOccursFields (s : String) : List (String × JsonVal) → Bool
  | [] => false
  | (_, v) :: fs => stringOccurs s v || stringOccursFields s fs

end

/-- Model of `load_from_json` (main.py 111–133) over the parsed document
(`none` = missing file or JSON parse failure).  `key` is the
`--json-key` argument; the Python `if key:` test treats `None` and `""` alike. -/
def load_from_json (doc : Option JsonVal) (key : Option String) : List String :=
  match doc, key with
  | none, _ => []
  | some data, some k =>
    if k ≠ "" then
      match getByKeypath data k with
      | some (.arr items) =>
        items.foldl (fun acc v =>
          match v with
          | .str s => if is_valid_url s then insertSet acc s else acc
          | _ => acc) []
      | some (.str s) => if is_valid_url s then insertSet [] s else []
      | _ => []
    else collectUrlsAny data []
  | some data, none => collectUrlsAny data []

/-- XML element trees (`xml.etree.ElementTree`): tag, text, children.
Tags of parsed namespaced elements take the form `{uri}local`. -/
inductive Xml where
  | elem (tag : String) (text : Option String) (children : List Xml)

def Xml.tag : Xml → String
  | .elem t _ _ => t

def Xml.text : Xml → Option String
  | .elem _ tx _ => tx

mutual

/-- Python `root.iter()`: all elements of the tree in document (pre-)order. -/
def allElems : Xml → List Xml
  | .elem t tx cs => .elem t tx cs :: allElemsList cs

def allElemsList : List Xml → List Xml
  | [] => []
  | x :: xs => allElems x ++ allElemsList xs

end

/-- Python `str.lower()` (ASCII). -/
def pyLower (s : String) : String := String.mk (s.data.map Char.toLower)

/-- Python `s.endswith("loc")`: the last three characters are `loc`. -/
def endsWithLoc (s : String) : Bool := s.data.reverse.take 3 = ['c', 'o', 'l']

/-- The worker loop body of `load_from_sitemap` (main.py 150–155) applied
to one element and the accumulated set: `elem.tag.lower().endswith("loc")`,
then the truthiness test `if elem.text:`, strip, validate, add. -/
def sitemapStep (acc : List String) (e : Xml) : List String :=
  if endsWithLoc (pyLower e.tag) then
    match e.text with
    | some t =>
      if t ≠ "" then
        let u := pyStrip t
        if is_valid_url u then insertSet acc u else acc
      else acc
    | none => acc
  else acc

/-- Extraction step of `load_from_sitemap` over a parsed tree. -/
def sitemapUrls (x : Xml) : List String :=
  (allElems x).foldl sitemapStep []

/-- Model of `load_from_sitemap` (`none` = fetch failure, missing file, or XML parse
failure — every path of the source `try` that ends in the diagnostic). -/
def load_from_sitemap (doc : Option Xml) : List String :=
  match doc with
  | none => []
  | some x => sitemapUrls x

/-- The local part of an ElementTree tag: what remains after the first `}`
(the `{uri}` namespace marker), or the whole tag when there is none. -/
def afterRBrace : List Char → Option (List Char)
  | [] => none
  | c :: rest => if c = '}' then some rest else afterRBrace rest

def localName (tag : String) : String :=
  match afterRBrace tag.data with
  | some r => String.mk r
  | none => tag

/-- Reading of the sitemap filter taken by the spec: the tag name, ignoring any
namespace prefix and compared case-insensitively, ends in `"loc"`. -/
def specLocTag (tag : String) : Bool :=
  endsWithLoc (pyLower (localName tag))

/-! ## Aggregator `collect_urls` (main.py 161–185) and `main` (188–225) -/

/-- The parsed command line, with each input source replaced by the data
the corresponding loader would read (`none` at the outer level = flag not
supplied, so that extractor is never invoked). -/
structure Args where
  urls : Option (List String)
  file : Option (Option (List String))
  stdinLines : Option (List String)
  csv : Option (Option CsvDoc)
  csvColumn : String
  json : Option (Option JsonVal)
  jsonKey : Option String
  sitemap : Option (Option Xml)

/-- One `if args.X: urls |= extractor(...)` step of `collect_urls`: the
extractor runs only when its input was supplied. -/
def unionFrom {β : Type} (urls : List String) (o : Option β)
    (f : β → List String) : List String :=
  match o with
  | some b => listUnion urls (f b)
  | none => urls

def collect_urls (a : Args) : List String :=
  let urls : List String := []
  let urls := unionFrom urls a.urls (fun us => us.filter is_valid_url)
  let urls := unionFrom urls a.file load_from_file_lines
  let urls := unionFrom urls a.stdinLines load_from_stdin
  let urls := unionFrom urls a.csv (fun doc => load_from_csv doc a.csvColumn)
  let urls := unionFrom urls a.json (fun doc => load_from_json doc a.jsonKey)
  let urls := unionFrom urls a.sitemap load_from_sitemap
  urls

/-- The observable effects of `main` after `collect_urls` (main.py
211–225). -/
inductive MainEffect where
  | print (msg : String)
  | makedirsOut (dir : String)
  | spawn (url : String)
  deriving Repr, DecidableEq

/-- Effect trace of `main` as a function of the aggregated URL set. -/
def mainEffects (urls : List String) (out : String) (producers : Nat) : List MainEffect :=
  if urls = [] then [.print "No URLs provided."]
  else
    [.makedirsOut out,
     .print ("Downloading " ++ toString urls.length ++ " file(s) with " ++
             toString producers ++ " worker(s)...")] ++
    urls.map .spawn ++ [.print "All downloads completed."]

/-! ## Lemmas: `splitSlash`, `joinSlash`, `replaceDotDot` -/

theorem head_dropWhile_not (p : Char → Bool) (l : List Char) (c : Char)
    (h : (l.dropWhile p).head? = some c) : p c = false := by
  induction l with
  | nil => simp [List.dropWhile] at h
  | cons a as ih =>
    rw [List.dropWhile_cons] at h
    by_cases hp : p a
    · simp [hp] at h; exact ih h
    · simp [hp] at h
      cases h
      simpa using hp

theorem splitSlash_cons_slash (rest : List Char) :
    splitSlash ('/' :: rest) = [] :: splitSlash rest := by
  simp [splitSlash]

theorem splitSlash_cons_head (c : Char) (rest : List Char) (hc : c ≠ '/')
    (r : List Char) (rs : List (List Char)) (h : splitSlash rest = r :: rs) :
    splitSlash (c :: rest) = (c :: r) :: rs := by
  simp [splitSlash, hc, h]

theorem splitSlash_head_prefix (l : List Char) :
    ∃ r rs, splitSlash l = r :: rs ∧ r <+: l := by
  induction l with
  | nil => exact ⟨[], [], by simp [splitSlash], List.nil_prefix⟩
  | cons c rest ih =>
    by_cases hc : c = '/'
    · subst hc
      exact ⟨[], splitSlash rest, splitSlash_cons_slash rest, List.nil_prefix⟩
    · obtain ⟨r, rs, heq, hpre⟩ := ih
      exact ⟨c :: r, rs, splitSlash_cons_head c rest hc r rs heq,
        List.cons_prefix_cons.mpr ⟨rfl, hpre⟩⟩

theorem mem_splitSlash_infix (l : List Char) :
    ∀ c, c ∈ splitSlash l → c <:+: l := by
  induction l with
  | nil =>
    intro c h
    simp [splitSlash] at h
    simp [h]
  | cons a rest ih =>
    intro c h
    by_cases ha : a = '/'
    · subst ha
      rw [splitSlash_cons_slash] at h
      rcases List.mem_cons.mp h with h | h
      · simp [h]
      · exact (ih c h).trans (List.infix_cons (List.infix_refl rest))
    · obtain ⟨r, rs, heq, hpre⟩ := splitSlash_head_prefix rest
      rw [splitSlash_cons_head a rest ha r rs heq] at h
      rcases List.mem_cons.mp h with h | h
      · subst h
        exact (List.cons_prefix_cons.mpr ⟨rfl, hpre⟩).isInfix
      · have hmem : c ∈ splitSlash rest := by
          rw [heq]; exact List.mem_cons_of_mem _ h
        exact (ih c hmem).trans (List.infix_cons (List.infix_refl rest))

theorem mem_splitSlash_no_slash (l : List Char) :
    ∀ c, c ∈ splitSlash l → c.contains '/' = false := by
  induction l with
  | nil =>
    intro c h
    simp [splitSlash] at h
    simp [h]
  | cons a rest ih =>
    intro c h
    by_cases ha : a = '/'
    · subst ha
      rw [splitSlash_cons_slash] at h
      rcases List.mem_cons.mp h with h | h
      · simp [h]
      · exact ih c h
    · obtain ⟨r, rs, heq, _⟩ := splitSlash_head_prefix rest
      rw [splitSlash_cons_head a rest ha r rs heq] at h
      rcases List.mem_cons.mp h with h | h
      · subst h
        have hr : r.contains '/' = false := by
          apply ih
          rw [heq]
          exact List.mem_cons_self _ _
        simp only [List.contains_cons, Bool.or_eq_false_iff]
        refine ⟨by simpa using fun he => ha he.symm, hr⟩
      · apply ih
        rw [heq]
        exact List.mem_cons_of_mem _ h

theorem splitSlash_of_no_slash (l : List Char) (h : l.contains '/' = false) :
    splitSlash l = [l] := by
  induction l with
  | nil => simp [splitSlash]
  | cons a rest ih =>
    simp only [List.contains_cons, Bool.or_eq_false_iff] at h
    have ha : a ≠ '/' := by
      intro hcontra
      subst hcontra
      simpa using h.1
    rw [splitSlash_cons_head a rest ha rest [] (ih h.2)]

theorem splitSlash_append_slash (c m : List Char) (h : c.contains '/' = false) :
    splitSlash (c ++ '/' :: m) = c :: splitSlash m := by
  induction c with
  | nil => simpa using splitSlash_cons_slash m
  | cons a as ih =>
    simp only [List.contains_cons, Bool.or_eq_false_iff] at h
    have ha : a ≠ '/' := by
      intro hcontra
      subst hcontra
      simpa using h.1
    have hrec := ih h.2
    obtain ⟨r, rs, heq, _⟩ := splitSlash_head_prefix (as ++ '/' :: m)
    rw [heq] at hrec
    cases hrec
    simpa using splitSlash_cons_head a (as ++ '/' :: m) ha as (splitSlash m) heq

theorem splitSlash_joinSlash (comps : List (List Char)) (hne : comps ≠ [])
    (h : ∀ c ∈ comps, c ≠ [] ∧ c.contains '/' = false) :
    splitSlash (joinSlash comps) = comps := by
  induction comps with
  | nil => exact absurd rfl hne
  | cons c cs ih =>
    cases cs with
    | nil =>
      have := h c (List.mem_cons_self _ _)
      simp only [joinSlash]
      exact splitSlash_of_no_slash c this.2
    | cons c2 cs2 =>
      have hh := h c (List.mem_cons_self _ _)
      have hrest : ∀ x ∈ c2 :: cs2, x ≠ [] ∧ x.contains '/' = false :=
        fun x hx => h x (List.mem_cons_of_mem _ hx)
      simp only [joinSlash]
      rw [splitSlash_append_slash c (joinSlash (c2 :: cs2)) hh.2]
      rw [ih (by simp) hrest]

theorem joinSlash_head (c : List Char) (cs : List (List Char)) (hc : c ≠ []) :
    (joinSlash (c :: cs)).head? = c.head? := by
  cases cs with
  | nil => simp [joinSlash]
  | cons c2 cs2 =>
    cases c with
    | nil => exact absurd rfl hc
    | cons a as => simp [joinSlash]

theorem joinSlash_ne_nil (c : List Char) (cs : List (List Char)) (hc : c ≠ []) :
    joinSlash (c :: cs) ≠ [] := by
  cases cs with
  | nil => simpa [joinSlash]
  | cons c2 cs2 =>
    cases c with
    | nil => exact absurd rfl hc
    | cons a as => simp [joinSlash]

/-! ## Lemmas: `hasDotDot` and `replaceDotDotL` -/

theorem hasDotDot_cons (c : Char) (l : List Char) (h : hasDotDot l = true) :
    hasDotDot (c :: l) = true := by
  cases l with
  | nil => simp [hasDotDot] at h
  | cons c2 rest =>
    by_cases hdots : c = '.' ∧ c2 = '.'
    · simp [hasDotDot, hdots]
    · simpa [hasDotDot, hdots] using h

theorem hasDotDot_of_dotdot_infix (l : List Char)
    (h : ['.', '.'] <:+: l) : hasDotDot l = true := by
  induction l with
  | nil => simp at h
  | cons c rest ih =>
    rcases List.infix_cons_iff.mp h with h | h
    · rcases List.cons_prefix_cons.mp h with ⟨rfl, h2⟩
      cases rest with
      | nil => simp at h2
      | cons c2 rest2 =>
        rcases List.cons_prefix_cons.mp h2 with ⟨rfl, _⟩
        simp [hasDotDot]
    · exact hasDotDot_cons c rest (ih h)

theorem replaceDotDotL_head (l : List Char) :
    (replaceDotDotL l).head? = l.head? ∨ (replaceDotDotL l).head? = some '_' := by
  cases l with
  | nil => left; rfl
  | cons c1 rest =>
    cases rest with
    | nil => left; rfl
    | cons c2 rest2 =>
      by_cases hdots : c1 = '.' ∧ c2 = '.'
      · right; simp [replaceDotDotL, hdots]
      · left; simp [replaceDotDotL, hdots]

theorem replaceDotDotL_ne_nil (l : List Char) (h : l ≠ []) :
    replaceDotDotL l ≠ [] := by
  cases l with
  | nil => exact absurd rfl h
  | cons c1 rest =>
    cases rest with
    | nil => simp [replaceDotDotL]
    | cons c2 rest2 =>
      by_cases hdots : c1 = '.' ∧ c2 = '.'
      · simp [replaceDotDotL, hdots]
      · simp [replaceDotDotL, hdots]

theorem hasDotDot_replaceDotDotL (l : List Char) :
    hasDotDot (replaceDotDotL l) = false := by
  induction l using replaceDotDotL.induct with
  | case1 => simp [replaceDotDotL, hasDotDot]
  | case2 c => simp [replaceDotDotL, hasDotDot]
  | case3 c1 c2 rest hdots ih =>
    rw [replaceDotDotL, if_pos hdots]
    cases hr : replaceDotDotL rest with
    | nil => simp [hasDotDot]
    | cons d ds =>
      simp only [hasDotDot]
      rw [if_neg (by simp)]
      rw [← hr]
      exact ih
  | case4 c1 c2 rest hdots ih =>
    rw [replaceDotDotL, if_neg hdots]
    by_cases hc1 : c1 = '.'
    · subst hc1
      have hc2 : c2 ≠ '.' := fun h => hdots ⟨rfl, h⟩
      have hd : (replaceDotDotL (c2 :: rest)).head? = some c2 ∨
          (replaceDotDotL (c2 :: rest)).head? = some '_' := by
        rcases replaceDotDotL_head (c2 :: rest) with h | h
        · left; simpa using h
        · right; exact h
      cases hrep : replaceDotDotL (c2 :: rest) with
      | nil => simp [hasDotDot]
      | cons d ds =>
        rw [hrep] at hd
        have hdne : d ≠ '.' := by
          rcases hd with h | h <;> simp at h <;> subst h
          · exact hc2
          · simp
        simp only [hasDotDot]
        rw [if_neg (by simp [hdne])]
        rw [← hrep]
        exact ih
    · cases hrep : replaceDotDotL (c2 :: rest) with
      | nil => simp [hasDotDot]
      | cons d ds =>
        simp only [hasDotDot]
        rw [if_neg (by simp [hc1])]
        rw [← hrep]
        exact ih

/-- No component of the replaced string is `".."`. -/
theorem replaceDotDotL_no_dotdot_comp (l : List Char) :
    ∀ c ∈ splitSlash (replaceDotDotL l), c ≠ ['.', '.'] := by
  intro c hmem hcontra
  subst hcontra
  have hinf := mem_splitSlash_infix (replaceDotDotL l) _ hmem
  have := hasDotDot_of_dotdot_infix _ hinf
  rw [hasDotDot_replaceDotDotL] at this
  cases this

/-! ## The `normComps` invariant: upward markers only as a leading run -/

theorem normComps_inv (comps : List (List Char)) :
    ∀ acc : List (List Char),
    (∀ c ∈ comps, c.contains '/' = false) →
    (∃ k ns, acc = List.replicate k ['.', '.'] ++ ns ∧ ['.', '.'] ∉ ns) →
    (∀ c ∈ acc, c ≠ [] ∧ c.contains '/' = false) →
    (∃ k ns, normComps false comps acc = List.replicate k ['.', '.'] ++ ns ∧
        ['.', '.'] ∉ ns) ∧
    ∀ c ∈ normComps false comps acc, c ≠ [] ∧ c.contains '/' = false := by
  induction comps with
  | nil =>
    intro acc _ h1 h2
    exact ⟨h1, by simpa [normComps] using h2⟩
  | cons c cs ih =>
    intro acc hcomps h1 h2
    have hc := hcomps c (List.mem_cons_self _ _)
    have hcs : ∀ x ∈ cs, x.contains '/' = false :=
      fun x hx => hcomps x (List.mem_cons_of_mem _ hx)
    by_cases hskip : c = [] ∨ c = ['.']
    · rw [show normComps false (c :: cs) acc = normComps false cs acc from by
        simp only [normComps]; rw [if_pos hskip]]
      exact ih acc hcs h1 h2
    · by_cases happ : c ≠ ['.', '.'] ∨ (True ∧ acc = []) ∨
          acc.getLast? = some ['.', '.']
      · rw [show normComps false (c :: cs) acc = normComps false cs (acc ++ [c]) from by
          simp only [normComps]; rw [if_neg hskip, if_pos happ]]
        apply ih (acc ++ [c]) hcs
        · obtain ⟨k, ns, rfl, hns⟩ := h1
          by_cases hdd : c = ['.', '.']
          · subst hdd
            rcases happ with happ | happ | happ
            · exact absurd rfl happ
            · have hnil : List.replicate k (['.', '.'] : List Char) ++ ns = [] := happ.2
              rw [List.append_eq_nil] at hnil
              refine ⟨1, [], ?_, by simp⟩
              rw [hnil.1, hnil.2]
              simp
            · have hns0 : ns = [] := by
                by_contra hne
                rw [List.getLast?_append_of_ne_nil _ hne] at happ
                exact hns (by
                  have := List.mem_of_mem_getLast? happ
                  simpa using this)
              subst hns0
              refine ⟨k + 1, [], ?_, by simp⟩
              rw [List.replicate_succ']
              simp
          · exact ⟨k, ns ++ [c], by simp, by
              intro hmem
              rcases List.mem_append.mp hmem with hmem | hmem
              · exact hns hmem
              · simp at hmem
                exact hdd hmem.symm⟩
        · intro x hx
          rcases List.mem_append.mp hx with hx | hx
          · exact h2 x hx
          · simp at hx
            subst hx
            push_neg at hskip
            exact ⟨hskip.1, hc⟩
      · have hacc : acc ≠ [] := fun h => happ (Or.inr (Or.inl ⟨trivial, h⟩))
        have hlast : acc.getLast? ≠ some ['.', '.'] :=
          fun h => happ (Or.inr (Or.inr h))
        have heq : normComps false (c :: cs) acc = normComps false cs acc.dropLast := by
          simp only [normComps]
          rw [if_neg hskip, if_neg happ, if_pos hacc]
        rw [heq]
        obtain ⟨k, ns, rfl, hns⟩ := h1
        have hnsne : ns ≠ [] := by
          intro hns0
          subst hns0
          simp only [List.append_nil] at hacc hlast
          cases k with
          | zero => exact hacc rfl
          | succ k' =>
            apply hlast
            rw [List.replicate_succ', List.getLast?_concat]
        apply ih _ hcs
        · refine ⟨k, ns.dropLast, ?_, ?_⟩
          · rw [List.dropLast_append_of_ne_nil _ hnsne]
          · intro hmem
            exact hns ((List.dropLast_sublist ns).mem hmem)
        · intro x hx
          exact h2 x ((List.dropLast_sublist _).mem hx)

/-! ## Safety of the preserve-path pipeline -/

theorem mk_eq_empty_iff (l : List Char) : String.mk l = "" ↔ l = [] := by
  constructor
  · intro h
    have : (String.mk l).data = ("" : String).data := by rw [h]
    simpa using this
  · intro h
    rw [h]

theorem pyNormpath_of_relative (s : String) (h1 : s.data ≠ [])
    (h2 : s.data.head? ≠ some '/') :
    pyNormpath s =
      (if joinSlash (normComps false (splitSlash s.data) []) = [] then "."
       else String.mk (joinSlash (normComps false (splitSlash s.data) []))) := by
  have hne : s ≠ "" := by
    intro h
    rw [h] at h1
    exact h1 rfl
  unfold pyNormpath
  rw [if_neg hne]
  simp only [h2, if_neg, if_false]
  simp

theorem pyNormpath_spec (s : String) (h1 : s.data ≠ [])
    (h2 : s.data.head? ≠ some '/') :
    (pyNormpath s).data ≠ [] ∧ (pyNormpath s).data.head? ≠ some '/' ∧
      (startsWithDotDot (pyNormpath s) = false →
        ∀ c ∈ splitSlash (pyNormpath s).data, c ≠ ['.', '.']) := by
  obtain ⟨hshape, hmem⟩ := normComps_inv (splitSlash s.data) []
    (mem_splitSlash_no_slash s.data)
    ⟨0, [], by simp, by simp⟩ (by simp)
  rw [pyNormpath_of_relative s h1 h2]
  rcases hc : normComps false (splitSlash s.data) [] with _ | ⟨c0, cs⟩
  · decide
  · have hc0 := hmem c0 (by rw [hc]; exact List.mem_cons_self _ _)
    have hall : ∀ x ∈ c0 :: cs, x ≠ [] ∧ x.contains '/' = false := by
      intro x hx
      exact hmem x (by rw [hc]; exact hx)
    have hjne : joinSlash (c0 :: cs) ≠ [] := joinSlash_ne_nil c0 cs hc0.1
    rw [if_neg hjne]
    refine ⟨by simpa using hjne, ?_, ?_⟩
    · show (joinSlash (c0 :: cs)).head? ≠ some '/'
      rw [joinSlash_head c0 cs hc0.1]
      intro hcontra
      have := hc0.2
      cases c0 with
      | nil => simp at hcontra
      | cons a as =>
        simp only [List.head?_cons, Option.some.injEq] at hcontra
        subst hcontra
        simp [List.contains_cons] at this
    · intro hsw c hcmem
      rw [show (String.mk (joinSlash (c0 :: cs))).data = joinSlash (c0 :: cs) from rfl,
        splitSlash_joinSlash (c0 :: cs) (by simp) hall] at hcmem
      obtain ⟨k, ns, hkns, hns⟩ := hshape
      rw [hc] at hkns
      cases k with
      | zero =>
        intro hcontra
        subst hcontra
        apply hns
        rw [show List.replicate 0 (['.', '.'] : List Char) ++ ns = ns from by simp] at hkns
        rw [← hkns]
        exact hcmem
      | succ k' =>
        exfalso
        rw [List.replicate_succ, List.cons_append] at hkns
        have hc0dd : c0 = ['.', '.'] := (List.cons_eq_cons.mp hkns).1
        apply absurd hsw
        have htake : (String.mk (joinSlash (c0 :: cs))).data.take 2 = ['.', '.'] := by
          show (joinSlash (c0 :: cs)).take 2 = ['.', '.']
          subst hc0dd
          cases cs with
          | nil => simp [joinSlash]
          | cons d ds => simp [joinSlash]
        simp [startsWithDotDot, htake]

theorem sanitized_safe (s : String) (h1 : s.data ≠ [])
    (h2 : s.data.head? ≠ some '/') :
    (sanitized s).data ≠ [] ∧ (sanitized s).data.head? ≠ some '/' ∧
      ∀ c ∈ splitSlash (sanitized s).data, c ≠ ['.', '.'] := by
  obtain ⟨hn1, hn2, hn3⟩ := pyNormpath_spec s h1 h2
  unfold sanitized
  by_cases hsw : startsWithDotDot (pyNormpath s) = true
  · rw [if_pos hsw]
    have hdata : (replaceDotDot (pyNormpath s)).data =
        replaceDotDotL (pyNormpath s).data := rfl
    refine ⟨?_, ?_, ?_⟩
    · rw [hdata]
      exact replaceDotDotL_ne_nil _ hn1
    · rw [hdata]
      rcases replaceDotDotL_head (pyNormpath s).data with h | h
      · rw [h]; exact hn2
      · rw [h]; simp
    · rw [hdata]
      exact replaceDotDotL_no_dotdot_comp _
  · rw [if_neg hsw]
    have hsw' : startsWithDotDot (pyNormpath s) = false := by
      cases h : startsWithDotDot (pyNormpath s)
      · rfl
      · exact absurd h hsw
    exact ⟨hn1, hn2, hn3 hsw'⟩

theorem preservedRelPath_ok (p : String) :
    (preservedRelPath p).data ≠ [] ∧ (preservedRelPath p).data.head? ≠ some '/' := by
  have hstrip : (lstripSlashes p.data).head? ≠ some '/' := by
    intro hcc
    have := head_dropWhile_not (· = '/') p.data '/' hcc
    simp at this
  rcases hl : lstripSlashes p.data with _ | ⟨a, as⟩
  · simp only [preservedRelPath, hl]
    decide
  · rw [hl] at hstrip
    have ha : a ≠ '/' := by
      intro hcontra
      subst hcontra
      exact hstrip rfl
  -- the stripped path is non-empty, so only the trailing-slash test matters
    by_cases hlast : (String.mk (a :: as)).data.getLast? = some '/'
    · have hcond : (String.mk (a :: as) = "" ||
          (String.mk (a :: as)).data.getLast? = some '/') = true := by
        simp [hlast]
      simp only [preservedRelPath, hl, hcond, if_true]
      unfold pyJoin
      rw [if_neg (by decide : ¬("downloaded_file" : String).data.head? = some '/'),
        if_pos hcond]
      constructor
      · show ((String.mk (a :: as)).data ++ ("downloaded_file" : String).data) ≠ []
        simp
      · show ((String.mk (a :: as)).data ++
            ("downloaded_file" : String).data).head? ≠ some '/'
        rw [show (String.mk (a :: as)).data = a :: as from rfl]
        simpa using ha
    · have hcond : (String.mk (a :: as) = "" ||
          (String.mk (a :: as)).data.getLast? = some '/') = false := by
        simp only [Bool.or_eq_false_iff]
        constructor
        · simp [mk_eq_empty_iff]
        · simp [hlast]
      simp only [preservedRelPath, hl, hcond, if_false]
      exact ⟨by simp, by simpa using ha⟩

/-! ## Claim theorems -/

/-- C1: For every URL, when `resolve_filepath` is called with
`preserve_path` true, the resolved path never lies outside the configured
output root: the result is `out_folder` joined with a relative component
that is non-empty, does not start with a separator, and contains no `".."`
path segment — after normalization, any result beginning with an upward
traversal has had every `".."` occurrence replaced by the inert `"_"`, so
the join cannot escape `out_folder`. -/
theorem c1_preserve_path_stays_within_root (url out fp : String)
    (h : resolve_filepath url out true = some fp) :
    ∃ rel : String, fp = pyJoin out rel ∧ rel.data ≠ [] ∧
      rel.data.head? ≠ some '/' ∧
      ∀ comp ∈ splitSlash rel.data, comp ≠ ['.', '.'] := by
  unfold resolve_filepath at h
  cases hp : pyUrlparse url with
  | error e =>
    rw [hp] at h
    cases h
  | ok parsed =>
    rw [hp] at h
    simp only [if_true] at h
    obtain ⟨hne, hhead⟩ := preservedRelPath_ok parsed.path
    obtain ⟨h1, h2, h3⟩ := sanitized_safe (preservedRelPath parsed.path) hne hhead
    cases h
    exact ⟨_, rfl, h1, h2, h3⟩

/-- Witness for C1: the traversal URL from the spec resolves under the
output root, with both `".."` segments neutralized. -/
theorem c1_witness : ∃ rel : String,
    "downloaded/_/_/etc/passwd" = pyJoin "downloaded" rel ∧ rel.data ≠ [] ∧
      rel.data.head? ≠ some '/' ∧
      ∀ comp ∈ splitSlash rel.data, comp ≠ ['.', '.'] :=
  c1_preserve_path_stays_within_root "http://h/../../etc/passwd" "downloaded"
    "downloaded/_/_/etc/passwd" (by decide)

/-- C2: `is_valid_url s` is true iff the parsed scheme is exactly
`"http"` or `"https"` (the parser lowercases it) and the netloc is
non-empty; a parse failure yields `false` (the function never raises), and
on the three examples of the spec it returns `false`, `false`, `true`. -/
theorem c2_is_valid_url_iff :
    (∀ s : String, is_valid_url s = true ↔
      ∃ p, pyUrlparse s = .ok p ∧
        (p.scheme = "http" ∨ p.scheme = "https") ∧ p.netloc ≠ "") ∧
    is_valid_url "ftp://x.com" = false ∧
    is_valid_url "http://" = false ∧
    is_valid_url "https://a.b/c" = true := by
  refine ⟨?_, by decide, by decide, by decide⟩
  intro s
  unfold is_valid_url
  cases hp : pyUrlparse s with
  | error e =>
    constructor
    · intro h
      cases h
    · rintro ⟨p, hq, _⟩
      cases hq
  | ok p =>
    constructor
    · intro h
      simp only [Bool.and_eq_true, Bool.or_eq_true, decide_eq_true_eq,
        bne_iff_ne, ne_eq] at h
      exact ⟨p, rfl, h.1, h.2⟩
    · rintro ⟨q, hq, h1, h2⟩
      cases hq
      simp only [Bool.and_eq_true, Bool.or_eq_true, decide_eq_true_eq,
        bne_iff_ne, ne_eq]
      exact ⟨h1, h2⟩

/-- Witness for C2: applying the iff at the valid example produces the
parsed components. -/
theorem c2_witness : ∃ p, pyUrlparse "https://a.b/c" = .ok p ∧
    (p.scheme = "http" ∨ p.scheme = "https") ∧ p.netloc ≠ "" :=
  (c2_is_valid_url_iff.1 "https://a.b/c").mp (by decide)

/-! ## Worker lemmas: directory creation only adds directories -/

theorem mem_foldl_insertDir (l : List String) :
    ∀ acc d, d ∈ acc →
      d ∈ l.foldl (fun ds x => if x ∈ ds then ds else ds ++ [x]) acc := by
  induction l with
  | nil => intro acc d h; simpa using h
  | cons a as ih =>
    intro acc d h
    simp only [List.foldl_cons]
    apply ih
    by_cases ha : a ∈ acc
    · rw [if_pos ha]; exact h
    · rw [if_neg ha]; exact List.mem_append_left _ h

theorem foldl_insertDir_mem (l : List String) :
    ∀ acc d, d ∈ l.foldl (fun ds x => if x ∈ ds then ds else ds ++ [x]) acc →
      d ∈ acc ∨ d ∈ l := by
  induction l with
  | nil => intro acc d h; exact Or.inl (by simpa using h)
  | cons a as ih =>
    intro acc d h
    simp only [List.foldl_cons] at h
    rcases ih _ d h with h | h
    · by_cases ha : a ∈ acc
      · rw [if_pos ha] at h
        exact Or.inl h
      · rw [if_neg ha] at h
        rcases List.mem_append.mp h with h | h
        · exact Or.inl h
        · simp at h
          exact Or.inr (by simp [h])
    · exact Or.inr (List.mem_cons_of_mem _ h)

theorem makedirs_ok (fs : FS) (p : String) (fs1 : FS)
    (h : makedirs fs p = .ok fs1) :
    fs1.files = fs.files ∧ (∀ d ∈ fs.dirs, d ∈ fs1.dirs) ∧
      ∀ d ∈ fs1.dirs, d ∈ fs.dirs ∨ d ∈ ancestors p := by
  unfold makedirs at h
  by_cases hc : (ancestors p).any fs.isFile = true
  · rw [if_pos hc] at h
    cases h
  · rw [if_neg hc] at h
    cases h
    exact ⟨rfl, fun d hd => mem_foldl_insertDir _ _ d hd,
      fun d hd => foldl_insertDir_mem _ _ d hd⟩

theorem ensureDir_ok (fs : FS) (fp : String) (fs1 : FS)
    (h : ensureDir fs fp = .ok fs1) :
    fs1.files = fs.files ∧ (∀ d ∈ fs.dirs, d ∈ fs1.dirs) ∧
      ∀ d ∈ fs1.dirs, d ∈ fs.dirs ∨ d ∈ ancestors (pyDirname fp) := by
  unfold ensureDir at h
  by_cases hc : pyDirname fp ≠ "" ∧ fs.isdir (pyDirname fp) = false
  · rw [if_pos hc] at h
    exact makedirs_ok fs _ fs1 h
  · rw [if_neg hc] at h
    cases h
    exact ⟨rfl, fun d hd => hd, fun d hd => Or.inl hd⟩

theorem ensureDir_exists (fs : FS) (fp : String) (fs1 : FS) (p : String)
    (h : ensureDir fs fp = .ok fs1) (hp : fs.exists p = true) :
    fs1.exists p = true := by
  obtain ⟨hfiles, hdirs, _⟩ := ensureDir_ok fs fp fs1 h
  unfold FS.exists FS.isFile FS.isdir at hp ⊢
  rw [hfiles]
  rcases Bool.or_eq_true_iff.mp hp with hp | hp
  · exact Bool.or_eq_true_iff.mpr (Or.inl hp)
  · refine Bool.or_eq_true_iff.mpr (Or.inr ?_)
    exact List.elem_eq_true_of_mem (hdirs p (List.mem_of_elem_eq_true hp))

theorem runAll_length (http : HttpOracle) (urls : List String)
    (out : String) (pp se : Bool) :
    ∀ fs, ((runAll http fs urls out pp se).1).length = urls.length := by
  induction urls with
  | nil => intro fs; simp [runAll]
  | cons u us ih =>
    intro fs
    simp only [runAll]
    simp [ih]

/-- Counterexample to C3 as stated: a final HTTP status of 304 is not 2xx,
yet `raise_for_status` only raises for 4xx/5xx, so the worker returns
`Saved` (and writes the body), not `Failed`. -/
theorem c3_counterexample :
    ¬ (200 ≤ 304 ∧ 304 < 300) ∧
    download_and_save (fun _ => .ok ⟨304, [9]⟩) ⟨[], []⟩ "http://h/a" "out"
        false false =
      .ok ⟨.saved "out/a", ⟨["out"], [("out/a", [9])]⟩, true⟩ :=
  ⟨by decide, rfl⟩

/-- C3 (amended): For every worker invocation that reaches its GET, a
transport error or a 4xx/5xx status results in a `Failed` outcome carrying
the underlying cause; no exception escapes the `try` block; and the
coordinator still runs one worker per URL, so other fetches proceed
unaffected. -/
theorem c3_fetch_errors_become_failed (http : HttpOracle) (fs : FS)
    (url out : String) (pp se : Bool) (fp : String) (fs1 : FS)
    (urls : List String)
    (h1 : resolve_filepath url out pp = some fp)
    (h2 : ensureDir fs fp = .ok fs1)
    (h3 : ¬ (se = true ∧ fs1.exists fp = true))
    (h4 : httpFails http url = true) :
    (∃ cause, download_and_save http fs url out pp se =
        .ok ⟨.failed url cause, fs1, true⟩) ∧
    ((runAll http fs urls out pp se).1).length = urls.length := by
  refine ⟨?_, runAll_length http urls out pp se fs⟩
  simp only [download_and_save, h1, h2]
  rw [if_neg h3]
  unfold httpFails at h4
  cases hh : http url with
  | transportError e =>
    exact ⟨e, rfl⟩
  | ok resp =>
    rw [hh] at h4
    simp only [decide_eq_true_eq] at h4
    have hrs : raise_for_status resp =
        .error ("HTTPError " ++ toString resp.status) := by
      unfold raise_for_status
      rw [if_pos h4]
    simp only [hrs]
    exact ⟨_, rfl⟩

/-- Witness for C3: a timed-out GET produces a `Failed` outcome with the
timeout as cause, and a two-URL run still yields two worker results. -/
theorem c3_witness :
    (∃ cause, download_and_save (fun _ => .transportError "timeout") ⟨[], []⟩
        "http://h/a" "o" false false =
      .ok ⟨.failed "http://h/a" cause, ⟨["o"], []⟩, true⟩) ∧
    ((runAll (fun _ => .transportError "timeout") ⟨[], []⟩
        ["http://h/a", "http://h/b"] "o" false false).1).length = 2 :=
  c3_fetch_errors_become_failed (fun _ => .transportError "timeout") ⟨[], []⟩
    "http://h/a" "o" false false "o/a" ⟨["o"], []⟩
    ["http://h/a", "http://h/b"] (by decide) rfl (by decide) (by decide)

/-- C4: If the aggregated working URL set is empty, `main` stops with
the diagnostic alone: the output directory is not created and no worker is
spawned. -/
theorem c4_empty_set_short_circuits (a : Args) (out : String) (producers : Nat)
    (h : collect_urls a = []) :
    mainEffects (collect_urls a) out producers =
      [.print "No URLs provided."] ∧
    (∀ d, MainEffect.makedirsOut d ∉ mainEffects (collect_urls a) out producers) ∧
    ∀ u, MainEffect.spawn u ∉ mainEffects (collect_urls a) out producers := by
  rw [h]
  refine ⟨by simp [mainEffects], fun d => ?_, fun u => ?_⟩ <;>
    simp [mainEffects]

/-- Witness for C4: with no input source supplied, the run prints the
diagnostic and performs no other effect. -/
theorem c4_witness :
    mainEffects (collect_urls ⟨none, none, none, none, "url", none, none, none⟩)
        "downloaded" 6 = [.print "No URLs provided."] ∧
    (∀ d, MainEffect.makedirsOut d ∉
      mainEffects (collect_urls ⟨none, none, none, none, "url", none, none, none⟩)
        "downloaded" 6) ∧
    ∀ u, MainEffect.spawn u ∉
      mainEffects (collect_urls ⟨none, none, none, none, "url", none, none, none⟩)
        "downloaded" 6 :=
  c4_empty_set_short_circuits ⟨none, none, none, none, "url", none, none, none⟩
    "downloaded" 6 (by decide)

/-- C5: With `skip_existing` set and the resolved target already on
disk, the worker returns `Skipped` and never issues the GET. -/
theorem c5_skip_existing_no_get (http : HttpOracle) (fs : FS)
    (url out : String) (pp : Bool) (fp : String) (r : WorkerResult)
    (h1 : resolve_filepath url out pp = some fp)
    (h2 : fs.exists fp = true)
    (h3 : download_and_save http fs url out pp true = .ok r) :
    r.outcome = .skipped fp ∧ r.getIssued = false := by
  simp only [download_and_save, h1] at h3
  cases he : ensureDir fs fp with
  | error e =>
    simp only [he] at h3
    cases h3
  | ok fs1 =>
    simp only [he] at h3
    have hex : fs1.exists fp = true := ensureDir_exists fs fp fs1 fp he h2
    rw [if_pos ⟨trivial, hex⟩] at h3
    cases h3
    exact ⟨rfl, rfl⟩

/-- Witness for C5: with the target file already present, the worker
reports `Skipped` without a GET. -/
theorem c5_witness :
    (⟨.skipped "out/b.txt", ⟨["out"], [("out/b.txt", [7])]⟩, false⟩ :
        WorkerResult).outcome = .skipped "out/b.txt" ∧
    (⟨.skipped "out/b.txt", ⟨["out"], [("out/b.txt", [7])]⟩, false⟩ :
        WorkerResult).getIssued = false :=
  c5_skip_existing_no_get (fun _ => .ok ⟨200, [1]⟩)
    ⟨["out"], [("out/b.txt", [7])]⟩ "http://h/b.txt" "out" false "out/b.txt"
    ⟨.skipped "out/b.txt", ⟨["out"], [("out/b.txt", [7])]⟩, false⟩
    (by decide) (by decide) rfl

/-- Counterexample to C9 as stated: a final status of 303 is not 2xx (a
"failed" GET in the sense of the claim), yet the worker opens the file and
replaces the pre-existing content `[1]` with the body `[9]`. -/
theorem c9_counterexample :
    ¬ (200 ≤ 303 ∧ 303 < 300) ∧
    download_and_save (fun _ => .ok ⟨303, [9]⟩) ⟨["o"], [("o/a", [1])]⟩
        "http://h/a" "o" false false =
      .ok ⟨.saved "o/a", ⟨["o"], [("o/a", [9])]⟩, true⟩ :=
  ⟨by decide, rfl⟩

/-- C9 (amended): When the GET fails in the sense the worker detects —
transport error or 4xx/5xx status — the target file is never opened or
written: the file map is exactly as before, the outcome is `Failed`, and
the only filesystem effect is the earlier parent-directory creation
(`ensureDir`). -/
theorem c9_failed_get_leaves_files_untouched (http : HttpOracle) (fs : FS)
    (url out : String) (pp se : Bool) (r : WorkerResult)
    (h1 : download_and_save http fs url out pp se = .ok r)
    (h2 : httpFails http url = true)
    (h3 : r.getIssued = true) :
    (∃ cause, r.outcome = .failed url cause) ∧
    r.fs.files = fs.files ∧
    ∃ fp, resolve_filepath url out pp = some fp ∧ ensureDir fs fp = .ok r.fs := by
  unfold download_and_save at h1
  cases hr : resolve_filepath url out pp with
  | none =>
    rw [hr] at h1
    cases h1
  | some fp =>
    rw [hr] at h1
    simp only [] at h1
    cases he : ensureDir fs fp with
    | error e =>
      simp only [he] at h1
      cases h1
    | ok fs1 =>
      simp only [he] at h1
      by_cases hskip : se = true ∧ fs1.exists fp = true
      · rw [if_pos hskip] at h1
        cases h1
        cases h3
      · rw [if_neg hskip] at h1
        unfold httpFails at h2
        cases hh : http url with
        | transportError e =>
          rw [hh] at h1
          cases h1
          exact ⟨⟨e, rfl⟩, (ensureDir_ok fs fp fs1 he).1, fp, rfl, he⟩
        | ok resp =>
          rw [hh] at h1 h2
          simp only [decide_eq_true_eq] at h2
          have hrs : raise_for_status resp =
              .error ("HTTPError " ++ toString resp.status) := by
            unfold raise_for_status
            rw [if_pos h2]
          simp only [hrs] at h1
          cases h1
          exact ⟨⟨_, rfl⟩, (ensureDir_ok fs fp fs1 he).1, fp, rfl, he⟩

/-- Witness for C9: a 404 on a tree holding an unrelated file leaves the
file map unchanged and reports `Failed`. -/
theorem c9_witness :
    (∃ cause, (⟨.failed "http://h/a" "HTTPError 404",
        ⟨["o"], [("o/x", [1])]⟩, true⟩ : WorkerResult).outcome =
      .failed "http://h/a" cause) ∧
    (⟨.failed "http://h/a" "HTTPError 404",
        ⟨["o"], [("o/x", [1])]⟩, true⟩ : WorkerResult).fs.files =
      (⟨["o"], [("o/x", [1])]⟩ : FS).files ∧
    ∃ fp, resolve_filepath "http://h/a" "o" false = some fp ∧
      ensureDir ⟨["o"], [("o/x", [1])]⟩ fp =
        .ok (⟨.failed "http://h/a" "HTTPError 404",
          ⟨["o"], [("o/x", [1])]⟩, true⟩ : WorkerResult).fs :=
  c9_failed_get_leaves_files_untouched (fun _ => .ok ⟨404, [2]⟩)
    ⟨["o"], [("o/x", [1])]⟩ "http://h/a" "o" false false
    ⟨.failed "http://h/a" "HTTPError 404", ⟨["o"], [("o/x", [1])]⟩, true⟩
    rfl (by decide) (by decide)

/-- C10: Path resolution and parent-directory creation happen outside
the `try` block of the worker: if `resolve_filepath` raises, or `os.makedirs` fails
(an existing regular file occupying a needed directory name), the exception
propagates out of `download_and_save`, no `Failed` diagnostic is produced,
and the coordinator — which drains `as_completed` without inspecting the
futures — observes no outcome at all for that URL. -/
theorem c10_setup_errors_silently_swallowed (http : HttpOracle) (fs : FS)
    (url out : String) (pp se : Bool) (fp e : String)
    (h : resolve_filepath url out pp = none ∨
      (resolve_filepath url out pp = some fp ∧ ensureDir fs fp = .error e)) :
    ∃ err, download_and_save http fs url out pp se = .error err ∧
      observedOutcomes (runAll http fs [url] out pp se).1 = [] := by
  have hd : ∃ err, download_and_save http fs url out pp se = .error err := by
    rcases h with h | ⟨h1, h2⟩
    · simp only [download_and_save, h]
      exact ⟨_, rfl⟩
    · simp only [download_and_save, h1, h2]
      exact ⟨e, rfl⟩
  obtain ⟨err, herr⟩ := hd
  refine ⟨err, herr, ?_⟩
  simp [runAll, herr, observedOutcomes]

/-- Witness for C10: with `o/a` an existing regular file occupying the
directory position of `o/a/b`, the worker raises and the run shows no
outcome for the URL. -/
theorem c10_witness :
    ∃ err, download_and_save (fun _ => .ok ⟨200, [1]⟩) ⟨[], [("o/a", [1])]⟩
        "http://h/a/b" "o" true false = .error err ∧
      observedOutcomes (runAll (fun _ => .ok ⟨200, [1]⟩) ⟨[], [("o/a", [1])]⟩
        ["http://h/a/b"] "o" true false).1 = [] :=
  c10_setup_errors_silently_swallowed (fun _ => .ok ⟨200, [1]⟩)
    ⟨[], [("o/a", [1])]⟩ "http://h/a/b" "o" true false "o/a/b"
    "FileExistsError o/a" (Or.inr ⟨by decide, rfl⟩)

/-! ## Set lemmas: `insertSet`, `listUnion`, validated folds -/

theorem mem_insertSet (acc : List String) (u x : String) :
    x ∈ insertSet acc u ↔ x ∈ acc ∨ x = u := by
  unfold insertSet
  by_cases h : u ∈ acc
  · rw [if_pos h]
    constructor
    · exact Or.inl
    · rintro (hx | rfl)
      · exact hx
      · exact h
  · rw [if_neg h]
    simp

theorem insertSet_nodup (acc : List String) (u : String) (h : acc.Nodup) :
    (insertSet acc u).Nodup := by
  unfold insertSet
  by_cases hu : u ∈ acc
  · rw [if_pos hu]
    exact h
  · rw [if_neg hu]
    simpa [List.nodup_append] using ⟨h, hu⟩

/-- A fold whose step either keeps the accumulator or inserts a valid URL
preserves the all-valid invariant and duplicate-freedom. -/
theorem foldl_insert_preserves {α : Type} (step : List String → α → List String)
    (l : List α)
    (hstep : ∀ acc a, a ∈ l → (step acc a = acc ∨
      ∃ u, is_valid_url u = true ∧ step acc a = insertSet acc u)) :
    ∀ acc : List String,
      ((∀ x ∈ acc, is_valid_url x = true) →
        ∀ x ∈ l.foldl step acc, is_valid_url x = true) ∧
      (acc.Nodup → (l.foldl step acc).Nodup) := by
  induction l with
  | nil =>
    intro acc
    exact ⟨fun h x hx => h x (by simpa using hx), fun h => by simpa using h⟩
  | cons a as ih =>
    have hstep' : ∀ acc x, x ∈ as → (step acc x = acc ∨
        ∃ u, is_valid_url u = true ∧ step acc x = insertSet acc u) :=
      fun acc x hx => hstep acc x (List.mem_cons_of_mem _ hx)
    intro acc
    constructor
    · intro hv x hx
      simp only [List.foldl_cons] at hx
      rcases hstep acc a (List.mem_cons_self _ _) with hs | ⟨u, hu, hs⟩
      · exact (ih hstep' acc).1 hv x (by rwa [hs] at hx)
      · refine (ih hstep' (insertSet acc u)).1 ?_ x (by rwa [hs] at hx)
        intro y hy
        rcases (mem_insertSet acc u y).mp hy with hy | rfl
        · exact hv y hy
        · exact hu
    · intro hn
      simp only [List.foldl_cons]
      rcases hstep acc a (List.mem_cons_self _ _) with hs | ⟨u, _, hs⟩
      · rw [hs]
        exact (ih hstep' acc).2 hn
      · rw [hs]
        exact (ih hstep' (insertSet acc u)).2 (insertSet_nodup acc u hn)

theorem listUnion_valid_nodup (urls src : List String)
    (h1 : ∀ x ∈ urls, is_valid_url x = true) (h2 : urls.Nodup)
    (h3 : ∀ x ∈ src, is_valid_url x = true) :
    (∀ x ∈ listUnion urls src, is_valid_url x = true) ∧
      (listUnion urls src).Nodup := by
  have h := foldl_insert_preserves insertSet src
    (fun acc a ha => Or.inr ⟨a, h3 a ha, rfl⟩) urls
  exact ⟨h.1 h1, h.2 h2⟩

/-! ## Characterizing the unrestricted JSON traversal -/

mutual

theorem collectUrlsAny_mem : ∀ (v : JsonVal) (acc : List String) (s : String),
    s ∈ collectUrlsAny v acc ↔
      s ∈ acc ∨ (stringOccurs s v = true ∧ is_valid_url s = true)
  | .str t, acc, s => by
    simp only [collectUrlsAny, stringOccurs]
    by_cases hv : is_valid_url t = true
    · rw [if_pos hv, mem_insertSet]
      constructor
      · rintro (h | rfl)
        · exact Or.inl h
        · exact Or.inr ⟨by simp, hv⟩
      · rintro (h | ⟨hst, hsv⟩)
        · exact Or.inl h
        · simp only [decide_eq_true_eq] at hst
          exact Or.inr hst
    · rw [if_neg hv]
      constructor
      · exact Or.inl
      · rintro (h | ⟨hst, hsv⟩)
        · exact h
        · simp only [decide_eq_true_eq] at hst
          subst hst
          exact absurd hsv hv
  | .arr items, acc, s => by
    simpa [collectUrlsAny, stringOccurs] using collectUrlsAnyList_mem items acc s
  | .obj fields, acc, s => by
    simpa [collectUrlsAny, stringOccurs] using collectUrlsAnyFields_mem fields acc s
  | .num n, acc, s => by simp [collectUrlsAny, stringOccurs]
  | .bool b, acc, s => by simp [collectUrlsAny, stringOccurs]
  | .null, acc, s => by simp [collectUrlsAny, stringOccurs]

theorem collectUrlsAnyList_mem : ∀ (l : List JsonVal) (acc : List String) (s : String),
    s ∈ collectUrlsAnyList l acc ↔
      s ∈ acc ∨ (stringOccursList s l = true ∧ is_valid_url s = true)
  | [], acc, s => by simp [collectUrlsAnyList, stringOccursList]
  | v :: vs, acc, s => by
    rw [collectUrlsAnyList, collectUrlsAnyList_mem vs _ s, collectUrlsAny_mem v acc s]
    simp only [stringOccursList, Bool.or_eq_true]
    tauto

theorem collectUrlsAnyFields_mem :
    ∀ (l : List (String × JsonVal)) (acc : List String) (s : String),
    s ∈ collectUrlsAnyFields l acc ↔
      s ∈ acc ∨ (stringOccursFields s l = true ∧ is_valid_url s = true)
  | [], acc, s => by simp [collectUrlsAnyFields, stringOccursFields]
  | (k, v) :: fs, acc, s => by
    rw [collectUrlsAnyFields, collectUrlsAnyFields_mem fs _ s, collectUrlsAny_mem v acc s]
    simp only [stringOccursFields, Bool.or_eq_true]
    tauto

end

mutual

theorem collectUrlsAny_nodup : ∀ (v : JsonVal) (acc : List String),
    acc.Nodup → (collectUrlsAny v acc).Nodup
  | .str t, acc, h => by
    simp only [collectUrlsAny]
    by_cases hv : is_valid_url t = true
    · rw [if_pos hv]
      exact insertSet_nodup acc t h
    · rwa [if_neg hv]
  | .arr items, acc, h => collectUrlsAnyList_nodup items acc h
  | .obj fields, acc, h => collectUrlsAnyFields_nodup fields acc h
  | .num n, acc, h => h
  | .bool b, acc, h => h
  | .null, acc, h => h

theorem collectUrlsAnyList_nodup : ∀ (l : List JsonVal) (acc : List String),
    acc.Nodup → (collectUrlsAnyList l acc).Nodup
  | [], _, h => h
  | v :: vs, acc, h =>
    collectUrlsAnyList_nodup vs _ (collectUrlsAny_nodup v acc h)

theorem collectUrlsAnyFields_nodup :
    ∀ (l : List (String × JsonVal)) (acc : List String),
    acc.Nodup → (collectUrlsAnyFields l acc).Nodup
  | [], _, h => h
  | (_, v) :: fs, acc, h =>
    collectUrlsAnyFields_nodup fs _ (collectUrlsAny_nodup v acc h)

end

/-! ## Every extractor emits only validated URLs -/

theorem load_from_file_lines_valid (content : Option (List String)) :
    ∀ u ∈ load_from_file_lines content, is_valid_url u = true := by
  cases content with
  | none => simp [load_from_file_lines]
  | some lines =>
    unfold load_from_file_lines
    refine (foldl_insert_preserves _ lines ?_ []).1 (by simp)
    intro acc a _
    by_cases hc : pyStrip a ≠ "" ∧ is_valid_url (pyStrip a) = true
    · exact Or.inr ⟨pyStrip a, hc.2, by simp only []; rw [if_pos hc]⟩
    · exact Or.inl (by simp only []; rw [if_neg hc])

theorem load_from_stdin_valid (lines : List String) :
    ∀ u ∈ load_from_stdin lines, is_valid_url u = true := by
  unfold load_from_stdin
  refine (foldl_insert_preserves _ lines ?_ []).1 (by simp)
  intro acc a _
  by_cases hc : pyStrip a ≠ "" ∧ is_valid_url (pyStrip a) = true
  · exact Or.inr ⟨pyStrip a, hc.2, by simp only []; rw [if_pos hc]⟩
  · exact Or.inl (by simp only []; rw [if_neg hc])

theorem load_from_csv_valid (doc : Option CsvDoc) (column : String) :
    ∀ u ∈ load_from_csv doc column, is_valid_url u = true := by
  cases doc with
  | none => simp [load_from_csv]
  | some d =>
    simp only [load_from_csv]
    by_cases hcol : column ∈ d.header
    · rw [if_pos hcol]
      refine (foldl_insert_preserves _ d.rows ?_ []).1 (by simp)
      intro acc row _
      by_cases hc : pyStrip (csvCell d.header row column) ≠ "" ∧
          is_valid_url (pyStrip (csvCell d.header row column)) = true
      · exact Or.inr ⟨_, hc.2, by simp [hc]⟩
      · exact Or.inl (by simp [hc, insertSet])
    · rw [if_neg hcol]
      simp

theorem load_from_json_valid (doc : Option JsonVal) (key : Option String) :
    ∀ u ∈ load_from_json doc key, is_valid_url u = true := by
  cases doc with
  | none => simp [load_from_json]
  | some data =>
    cases key with
    | none =>
      intro u hu
      simp only [load_from_json] at hu
      exact ((collectUrlsAny_mem data [] u).mp hu).elim (by simp) And.right
    | some k =>
      simp only [load_from_json]
      by_cases hk : k ≠ ""
      · rw [if_pos hk]
        cases hv : getByKeypath data k with
        | none => simp
        | some v =>
          cases v with
          | str t =>
            dsimp only
            by_cases ht : is_valid_url t = true
            · rw [if_pos ht]
              intro u hu
              rcases (mem_insertSet [] t u).mp hu with hu | rfl
              · simp at hu
              · exact ht
            · rw [if_neg ht]
              simp
          | arr items =>
            dsimp only
            refine (foldl_insert_preserves _ items ?_ []).1 (by simp)
            intro acc v _
            cases v with
            | str t =>
              by_cases ht : is_valid_url t = true
              · exact Or.inr ⟨t, ht, by simp only []; rw [if_pos ht]⟩
              · exact Or.inl (by simp only []; rw [if_neg ht])
            | num n => exact Or.inl rfl
            | bool b => exact Or.inl rfl
            | null => exact Or.inl rfl
            | arr l => exact Or.inl rfl
            | obj l => exact Or.inl rfl
          | num n => simp
          | bool b => simp
          | null => simp
          | obj fields2 => simp
      · rw [if_neg hk]
        intro u hu
        exact ((collectUrlsAny_mem data [] u).mp hu).elim (by simp) And.right

/-- Shape of one sitemap extraction step. -/
theorem sitemapStep_shape (acc : List String) (e : Xml) :
    sitemapStep acc e = acc ∨
      ∃ u, is_valid_url u = true ∧ sitemapStep acc e = insertSet acc u := by
  unfold sitemapStep
  by_cases h1 : endsWithLoc (pyLower e.tag) = true
  · rw [if_pos h1]
    cases ht : e.text with
    | none => exact Or.inl rfl
    | some t =>
      dsimp only
      by_cases h2 : t ≠ ""
      · rw [if_pos h2]
        by_cases h3 : is_valid_url (pyStrip t) = true
        · exact Or.inr ⟨pyStrip t, h3, by rw [if_pos h3]⟩
        · exact Or.inl (by rw [if_neg h3])
      · rw [if_neg h2]
        exact Or.inl rfl
  · rw [if_neg h1]
    exact Or.inl rfl

theorem load_from_sitemap_valid (doc : Option Xml) :
    ∀ u ∈ load_from_sitemap doc, is_valid_url u = true := by
  cases doc with
  | none => simp [load_from_sitemap]
  | some x =>
    unfold load_from_sitemap sitemapUrls
    exact (foldl_insert_preserves sitemapStep (allElems x)
      (fun acc e _ => sitemapStep_shape acc e) []).1 (by simp)

/-- C6: Every member of the aggregated working URL set has passed
`is_valid_url`, and the set is deduplicated by exact string equality —
duplicates across sources collapse because membership-checked insertion
keeps the list `Nodup`. -/
theorem c6_aggregated_set_valid_and_deduped (a : Args) :
    (∀ u ∈ collect_urls a, is_valid_url u = true) ∧ (collect_urls a).Nodup := by
  have ostep : ∀ {β : Type} (urls : List String) (o : Option β)
      (f : β → List String),
      ((∀ x ∈ urls, is_valid_url x = true) ∧ urls.Nodup) →
      (∀ b, ∀ x ∈ f b, is_valid_url x = true) →
      (∀ x ∈ unionFrom urls o f, is_valid_url x = true) ∧
        (unionFrom urls o f).Nodup := by
    intro β urls o f h hf
    cases o with
    | none => exact h
    | some b => exact listUnion_valid_nodup urls (f b) h.1 h.2 (hf b)
  have h0 : (∀ x ∈ ([] : List String), is_valid_url x = true) ∧
      ([] : List String).Nodup := ⟨by simp, List.nodup_nil⟩
  have h1 := ostep [] a.urls (fun us => us.filter is_valid_url) h0
    (fun us x hx => (List.mem_filter.mp hx).2)
  have h2 := ostep _ a.file load_from_file_lines h1
    (fun c => load_from_file_lines_valid c)
  have h3 := ostep _ a.stdinLines load_from_stdin h2
    (fun ls => load_from_stdin_valid ls)
  have h4 := ostep _ a.csv (fun doc => load_from_csv doc a.csvColumn) h3
    (fun doc => load_from_csv_valid doc a.csvColumn)
  have h5 := ostep _ a.json (fun doc => load_from_json doc a.jsonKey) h4
    (fun doc => load_from_json_valid doc a.jsonKey)
  have h6 := ostep _ a.sitemap load_from_sitemap h5
    (fun doc => load_from_sitemap_valid doc)
  simpa only [collect_urls] using h6

/-- Witness for C6: a literal list with a duplicate and an invalid entry
collapses to the single validated URL. -/
theorem c6_witness :
    is_valid_url "http://x/a.txt" = true ∧
    (collect_urls ⟨some ["http://x/a.txt", "http://x/a.txt", "ftp://z"],
      none, none, none, "url", none, none, none⟩).Nodup :=
  ⟨(c6_aggregated_set_valid_and_deduped
      ⟨some ["http://x/a.txt", "http://x/a.txt", "ftp://z"],
        none, none, none, "url", none, none, none⟩).1
      "http://x/a.txt" (by decide),
   (c6_aggregated_set_valid_and_deduped
      ⟨some ["http://x/a.txt", "http://x/a.txt", "ftp://z"],
        none, none, none, "url", none, none, none⟩).2⟩

/-- C7: With no key path, the JSON extractor's unrestricted recursive
traversal returns exactly the strings occurring at any nesting depth (as
list elements or object values) that pass URL validation; on the spec's
example document it returns exactly `{"http://x/f1"}`. -/
theorem c7_json_unrestricted_traversal :
    (∀ (v : JsonVal) (s : String),
      s ∈ load_from_json (some v) none ↔
        stringOccurs s v = true ∧ is_valid_url s = true) ∧
    load_from_json (some (.obj [("items",
        .arr [.obj [("link", .str "http://x/f1")],
              .obj [("link", .str "not-a-url")]])])) none = ["http://x/f1"] := by
  constructor
  · intro v s
    have h := collectUrlsAny_mem v [] s
    simp only [load_from_json] at *
    simpa using h
  · rfl

/-- Witness for C7: the valid URL of the example document is recovered by
the traversal characterization. -/
theorem c7_witness :
    "http://x/f1" ∈ load_from_json (some (.obj [("items",
        .arr [.obj [("link", .str "http://x/f1")],
              .obj [("link", .str "not-a-url")]])])) none :=
  (c7_json_unrestricted_traversal.1 _ "http://x/f1").mpr ⟨by decide, by decide⟩

/-! ## The namespaced-tag equivalence for the sitemap filter -/

theorem afterRBrace_decomp : ∀ (l r : List Char), afterRBrace l = some r →
    ∃ pre, l = pre ++ '}' :: r ∧ pre.contains '}' = false := by
  intro l
  induction l with
  | nil => intro r h; cases h
  | cons c rest ih =>
    intro r h
    by_cases hc : c = '}'
    · subst hc
      rw [show afterRBrace ('}' :: rest) = some rest from by
        simp [afterRBrace]] at h
      cases h
      exact ⟨[], by simp, by simp⟩
    · rw [show afterRBrace (c :: rest) = afterRBrace rest from by
        simp [afterRBrace, hc]] at h
      obtain ⟨pre, hdec, hpre⟩ := ih r h
      refine ⟨c :: pre, by simp [hdec], ?_⟩
      simp only [List.contains_cons, Bool.or_eq_false_iff,
        beq_eq_false_iff_ne, ne_eq]
      exact ⟨fun he => hc he.symm, hpre⟩

theorem take3_marker (R T : List Char) :
    (R ++ '}' :: T).take 3 = (['c', 'o', 'l'] : List Char) ↔
      R.take 3 = ['c', 'o', 'l'] := by
  match R with
  | [] => simp
  | [a] =>
    simp only [List.cons_append, List.nil_append, List.take_succ_cons]
    constructor
    · intro h
      simp at h
    · intro h
      simp at h
  | [a, b] =>
    simp only [List.cons_append, List.nil_append, List.take_succ_cons]
    constructor
    · intro h
      simp at h
    · intro h
      simp at h
  | a :: b :: c :: R' => simp

theorem locTag_equiv (tag : String) :
    endsWithLoc (pyLower tag) = specLocTag tag := by
  unfold specLocTag localName
  cases ha : afterRBrace tag.data with
  | none => rfl
  | some r =>
    obtain ⟨pre, hdec, _⟩ := afterRBrace_decomp tag.data r ha
    unfold endsWithLoc pyLower
    simp only [hdec]
    rw [List.map_append, List.map_cons]
    rw [show Char.toLower '}' = '}' from rfl]
    rw [List.reverse_append, List.reverse_cons, List.append_assoc]
    simp only [List.singleton_append]
    rw [decide_eq_decide]
    exact take3_marker _ _

theorem sitemapStep_mem (acc : List String) (e : Xml) (u : String) :
    u ∈ sitemapStep acc e ↔ u ∈ acc ∨
      (endsWithLoc (pyLower e.tag) = true ∧
        ∃ t, e.text = some t ∧ t ≠ "" ∧ pyStrip t = u ∧
          is_valid_url u = true) := by
  unfold sitemapStep
  by_cases h1 : endsWithLoc (pyLower e.tag) = true
  · rw [if_pos h1]
    cases ht : e.text with
    | none =>
      simp [ht]
    | some t =>
      dsimp only
      by_cases h2 : t ≠ ""
      · rw [if_pos h2]
        by_cases h3 : is_valid_url (pyStrip t) = true
        · rw [if_pos h3, mem_insertSet]
          constructor
          · rintro (h | rfl)
            · exact Or.inl h
            · exact Or.inr ⟨h1, t, rfl, h2, rfl, h3⟩
          · rintro (h | ⟨_, t', ht', h2', hstrip, hval⟩)
            · exact Or.inl h
            · cases ht'
              exact Or.inr hstrip.symm
        · rw [if_neg h3]
          constructor
          · exact Or.inl
          · rintro (h | ⟨_, t', ht', h2', hstrip, hval⟩)
            · exact h
            · cases ht'
              rw [hstrip] at h3
              exact absurd hval h3
      · rw [if_neg h2]
        constructor
        · exact Or.inl
        · rintro (h | ⟨_, t', ht', h2', _, _⟩)
          · exact h
          · cases ht'
            exact absurd h2' h2
  · rw [if_neg h1]
    constructor
    · exact Or.inl
    · rintro (h | ⟨hloc, _⟩)
      · exact h
      · exact absurd hloc h1

theorem sitemap_foldl_mem (es : List Xml) :
    ∀ (acc : List String) (u : String),
    u ∈ es.foldl sitemapStep acc ↔ u ∈ acc ∨
      ∃ e ∈ es, endsWithLoc (pyLower e.tag) = true ∧
        ∃ t, e.text = some t ∧ t ≠ "" ∧ pyStrip t = u ∧
          is_valid_url u = true := by
  induction es with
  | nil =>
    intro acc u
    simp
  | cons e es ih =>
    intro acc u
    simp only [List.foldl_cons]
    rw [ih, sitemapStep_mem]
    constructor
    · rintro ((h | hP) | ⟨e', he', hP'⟩)
      · exact Or.inl h
      · exact Or.inr ⟨e, List.mem_cons_self _ _, hP⟩
      · exact Or.inr ⟨e', List.mem_cons_of_mem _ he', hP'⟩
    · rintro (h | ⟨e', he', hP'⟩)
      · exact Or.inl (Or.inl h)
      · rcases List.mem_cons.mp he' with rfl | he'
        · exact Or.inl (Or.inr hP')
        · exact Or.inr ⟨e', he', hP'⟩

/-- C8: For every XML sitemap tree, the extractor candidates are the
trimmed text contents of exactly those elements whose tag, compared
case-insensitively and ignoring any `{uri}` namespace prefix, ends in
`"loc"`, keeping each candidate that passes URL validation — namespaced
`<loc>` entries behave exactly like unprefixed ones. -/
theorem c8_sitemap_loc_extraction (x : Xml) (u : String) :
    u ∈ sitemapUrls x ↔
      (∃ e ∈ allElems x, specLocTag e.tag = true ∧
        ∃ t, e.text = some t ∧ pyStrip t = u) ∧ is_valid_url u = true := by
  unfold sitemapUrls
  rw [sitemap_foldl_mem]
  simp only [List.not_mem_nil, false_or]
  constructor
  · rintro ⟨e, he, hloc, t, ht, h2, hstrip, hval⟩
    exact ⟨⟨e, he, by rw [← locTag_equiv e.tag]; exact hloc, t, ht, hstrip⟩, hval⟩
  · rintro ⟨⟨e, he, hspec, t, ht, hstrip⟩, hval⟩
    refine ⟨e, he, by rw [locTag_equiv e.tag]; exact hspec, t, ht, ?_, hstrip, hval⟩
    intro h0
    subst h0
    rw [show pyStrip "" = "" from rfl] at hstrip
    rw [← hstrip] at hval
    exact absurd hval (by decide)

/-- Witness for C8 (spec scenario D): a namespaced sitemap yields its first
`<loc>` entry through the extraction characterization. -/
theorem c8_witness :
    (∃ e ∈ allElems (.elem "{http://www.sitemaps.org/schemas/sitemap/0.9}urlset"
        none
        [.elem "{http://www.sitemaps.org/schemas/sitemap/0.9}url" none
          [.elem "{http://www.sitemaps.org/schemas/sitemap/0.9}loc"
            (some " http://x/p1 ") []],
         .elem "{http://www.sitemaps.org/schemas/sitemap/0.9}loc"
           (some "http://x/p2") []]),
      specLocTag e.tag = true ∧
        ∃ t, e.text = some t ∧ pyStrip t = "http://x/p1") ∧
    is_valid_url "http://x/p1" = true :=
  (c8_sitemap_loc_extraction
      (.elem "{http://www.sitemaps.org/schemas/sitemap/0.9}urlset" none
        [.elem "{http://www.sitemaps.org/schemas/sitemap/0.9}url" none
          [.elem "{http://www.sitemaps.org/schemas/sitemap/0.9}loc"
            (some " http://x/p1 ") []],
         .elem "{http://www.sitemaps.org/schemas/sitemap/0.9}loc"
           (some "http://x/p2") []])
      "http://x/p1").mp (by decide)

end Downloader